import Mathlib

/-!
Verification of the NIPET list-mode processing core (`lmproc`).

The repository source visible here is `src/niftypet/nipet/lm/src/lmproc.h`:
the output aggregate `hstout` (scalar fields `nitag`, `sne`, `psm`, `dsm`,
`tot` and pointer fields `snv`, `hcp`, `hcd`, `fan`, `bck`, `mss`, `ssr`,
`psn`, `dsn`) and the entry point
`void lmproc(hstout dicout, char *flm, int tstart, int tstop, LORcc *s2cF,
axialLUT axLUT, Cnst Cnt)`, which receives the aggregate BY VALUE and
returns void.  The decode-and-accumulate engine itself is not among the
visible sources, so it is modelled here from the specification
(stream decoder, windowing filter, histogram accumulator, result
assembler), and the call/frame semantics of the entry point are embedded
from the header's signature.
-/

namespace NIPET

/-- Modelled from the spec: the typed record kinds produced by the Stream
Decoder (`PromptCoincidence`, `DelayedCoincidence`, `TimeTag`,
`SingleDetectorHit/Bucket`, `GantryOrMotionTag`), plus `unknown` for a raw
word whose tag bits match no known record kind.  A coincidence carries a
compact detector-pair identifier, a time tag carries an elapsed-time
increment, a bucket record carries a bucket index and hit delta. -/
inductive RawRecord where
  | timeTag (dt : Nat)
  | prompt (dp : Nat)
  | delayed (dp : Nat)
  | bucket (idx : Nat) (delta : Nat)
  | gantry
  | unknown (word : Nat)
  deriving DecidableEq, Repr

/-- Modelled from the spec: the error kinds of §7 that this core itself
raises (stream/size errors belong to the excluded I/O collaborator). -/
inductive LmError where
  | InvalidWindowError
  | MalformedRecordError
  deriving DecidableEq, Repr

/-- Modelled from the spec: the value of the LOR-to-Bin Map `s2cF` for one
detector-pair code — endpoint crystals, sinogram angular (view) index,
radial index, and the ring pair. -/
structure SBin where
  c0 : Nat
  c1 : Nat
  ang : Nat
  rad : Nat
  r0 : Nat
  r1 : Nat
  deriving DecidableEq, Repr

/-- Modelled from the spec: scanner constants (`Cnst`) — angular, radial
and axial sinogram extents, segment count for single-slice rebinning,
maximum ring difference, crystal and bucket counts. -/
structure Cnst where
  NSANGLES : Nat
  NSBINS : Nat
  NSN : Nat
  NSEG : Nat
  MRD : Nat
  NCRS : Nat
  NBUCKETS : Nat
  deriving Repr

/-- Modelled from the spec: the Axial Compression Map (`axLUT`) — ring
pair to full axial/segment sinogram index, and ring pair to single-slice
rebinned axial index. -/
structure AxialLUT where
  sn : Nat → Nat → Nat
  ssrb : Nat → Nat → Nat

/-- Ring difference of a mapped coincidence. -/
def ringDiff (sb : SBin) : Nat := max sb.r0 sb.r1 - min sb.r0 sb.r1

/-- Flat bin index in the full 3-D sinograms `psn`/`dsn`:
(full axial index, angular index, radial index). -/
def psnBin (axLUT : AxialLUT) (Cnt : Cnst) (sb : SBin) : Nat :=
  (axLUT.sn sb.r0 sb.r1 * Cnt.NSANGLES + sb.ang) * Cnt.NSBINS + sb.rad

/-- Flat bin index in the single-slice rebinned sinogram `ssr`. -/
def ssrBin (axLUT : AxialLUT) (Cnt : Cnst) (sb : SBin) : Nat :=
  (axLUT.ssrb sb.r0 sb.r1 * Cnt.NSANGLES + sb.ang) * Cnt.NSBINS + sb.rad

/-- Total addressable bin count of each full 3-D sinogram. -/
def totBins (Cnt : Cnst) : Nat := Cnt.NSN * Cnt.NSANGLES * Cnt.NSBINS

/-- Point update of a histogram modelled as a total map: add `d` at
index `j`. -/
def bump (f : Nat → Nat) (j d : Nat) : Nat → Nat :=
  fun i => if i = j then f i + d else f i

/-- Modelled from the spec: the histogram counters accumulated during the
pass (the array contents behind the `hstout` pointer fields, plus the wide
grand totals; `mss` is kept as its running weighted sum and event count
per time-tag interval until the Result Assembler divides them). -/
structure Hist where
  snv : Nat → Nat
  hcp : Nat → Nat
  hcd : Nat → Nat
  fan : Nat → Nat
  bck : Nat → Nat
  ssr : Nat → Nat
  psn : Nat → Nat
  dsn : Nat → Nat
  psm : Nat
  dsm : Nat
  mssSum : Nat → Nat
  mssCnt : Nat → Nat

/-- The all-zero histograms (the caller zero-initializes the output
buffers before the call). -/
def Hist.zero : Hist where
  snv := fun _ => 0
  hcp := fun _ => 0
  hcd := fun _ => 0
  fan := fun _ => 0
  bck := fun _ => 0
  ssr := fun _ => 0
  psn := fun _ => 0
  dsn := fun _ => 0
  psm := 0
  dsm := 0
  mssSum := fun _ => 0
  mssCnt := fun _ => 0

/-- Modelled from the spec: the windowing/clock state threaded through the
pass — elapsed time `t` (advanced only by time tags), the number `ntag` of
time-tag intervals observed in the window so far, and whether the window
is still open (`live`; once elapsed time reaches `tstop` the pass
terminates early and the remainder of the stream is not decoded). -/
structure LmState where
  t : Nat
  ntag : Nat
  live : Bool
  hist : Hist

/-- The initial state: clock at zero, no interval observed, window open,
zeroed histograms. -/
def LmState.init : LmState where
  t := 0
  ntag := 0
  live := true
  hist := Hist.zero

/-- Current time-tag interval index: intervals are delimited by the
counted time tags, the events after the k-th counted tag land at
index `k - 1` (the scenario of §8: the prompt following the first tag is
head-curve index 0). -/
def LmState.itag (s : LmState) : Nat := s.ntag - 1

/-- Modelled from the spec (§4.3): accumulate one admitted coincidence.
Unmapped detector pair → `MalformedRecordError`.  Head curve and fan-sums
are always counted; the sinograms, grand totals, view totals and centre of
mass only when the ring difference is within the maximum ring difference
(inclusive bound). -/
def coincUpd (s2cF : Nat → Option SBin) (axLUT : AxialLUT) (Cnt : Cnst)
    (isPrompt : Bool) (itag dp : Nat) (h : Hist) : Except LmError Hist :=
  match s2cF dp with
  | none => .error .MalformedRecordError
  | some sb =>
    let h1 : Hist :=
      { h with
        hcp := if isPrompt then bump h.hcp itag 1 else h.hcp
        hcd := if isPrompt then h.hcd else bump h.hcd itag 1
        fan := bump (bump h.fan sb.c0 1) sb.c1 1 }
    if ringDiff sb ≤ Cnt.MRD then
      .ok { h1 with
        snv := bump h1.snv sb.ang 1
        ssr := bump h1.ssr (ssrBin axLUT Cnt sb) 1
        psn := if isPrompt then bump h1.psn (psnBin axLUT Cnt sb) 1 else h1.psn
        dsn := if isPrompt then h1.dsn else bump h1.dsn (psnBin axLUT Cnt sb) 1
        psm := if isPrompt then h1.psm + 1 else h1.psm
        dsm := if isPrompt then h1.dsm else h1.dsm + 1
        mssSum := bump h1.mssSum itag (axLUT.ssrb sb.r0 sb.r1)
        mssCnt := bump h1.mssCnt itag 1 }
    else
      .ok h1

/-- Modelled from the spec (§4.1–§4.3): process one raw word of the
stream over the half-open window `[ts, te)`.  Once the window is closed
nothing further is decoded.  A raw word matching no known kind fails the
pass.  A time tag advances the clock, is counted when the interval it
closes reaches past `ts`, and closes the window when the clock reaches
`te`.  Coincidence and bucket records are admitted only when the current
elapsed time lies in `[ts, te)`; records before `ts` are consumed only to
keep the clock correct. -/
def lmStep (s2cF : Nat → Option SBin) (axLUT : AxialLUT) (Cnt : Cnst)
    (ts te : Nat) (s : LmState) (r : RawRecord) : Except LmError LmState :=
  if s.live = false then .ok s
  else
    match r with
    | .timeTag dt =>
      let t1 := s.t + dt
      let ntag1 := if ts < t1 then s.ntag + 1 else s.ntag
      .ok { s with t := t1, ntag := ntag1, live := decide (t1 < te) }
    | .prompt dp =>
      if ts ≤ s.t ∧ s.t < te then
        (coincUpd s2cF axLUT Cnt true s.itag dp s.hist).map
          (fun h => { s with hist := h })
      else .ok s
    | .delayed dp =>
      if ts ≤ s.t ∧ s.t < te then
        (coincUpd s2cF axLUT Cnt false s.itag dp s.hist).map
          (fun h => { s with hist := h })
      else .ok s
    | .bucket idx delta =>
      if ts ≤ s.t ∧ s.t < te then
        .ok { s with hist := { s.hist with bck := bump s.hist.bck idx delta } }
      else .ok s
    | .gantry => .ok s
    | .unknown _ => .error .MalformedRecordError

/-- Run the pass over a whole stream. -/
def lmRun (s2cF : Nat → Option SBin) (axLUT : AxialLUT) (Cnt : Cnst)
    (ts te : Nat) : LmState → List RawRecord → Except LmError LmState
  | s, [] => .ok s
  | s, r :: rest => do
    let s1 ← lmStep s2cF axLUT Cnt ts te s r
    lmRun s2cF axLUT Cnt ts te s1 rest

/-- The filled output aggregate (field for field the `hstout` structure of
`lmproc.h`, with each pointer field replaced by the array contents it
points at). -/
structure HstOut where
  nitag : Nat
  sne : Nat
  snv : Nat → Nat
  hcp : Nat → Nat
  hcd : Nat → Nat
  fan : Nat → Nat
  bck : Nat → Nat
  mss : Nat → ℚ
  ssr : Nat → Nat
  psn : Nat → Nat
  dsn : Nat → Nat
  psm : Nat
  dsm : Nat
  tot : Nat

instance : Inhabited HstOut :=
  ⟨⟨0, 0, fun _ => 0, fun _ => 0, fun _ => 0, fun _ => 0, fun _ => 0,
    fun _ => 0, fun _ => 0, fun _ => 0, fun _ => 0, 0, 0, 0⟩⟩

/-- Modelled from the spec (§4.4, Result Assembler): finalize the centre
of mass (each accumulated weighted sum divided by its interval's event
count, zero sentinel for an interval with zero events), set `nitag` to the
number of observed intervals, `tot` to the total addressable bin count,
`sne` to the view-array extent. -/
def assemble (Cnt : Cnst) (s : LmState) : HstOut where
  nitag := s.ntag
  sne := Cnt.NSANGLES
  snv := s.hist.snv
  hcp := s.hist.hcp
  hcd := s.hist.hcd
  fan := s.hist.fan
  bck := s.hist.bck
  mss := fun i =>
    if s.hist.mssCnt i = 0 then 0
    else (s.hist.mssSum i : ℚ) / (s.hist.mssCnt i : ℚ)
  ssr := s.hist.ssr
  psn := s.hist.psn
  dsn := s.hist.dsn
  psm := s.hist.psm
  dsm := s.hist.dsm
  tot := totBins Cnt

/-- Modelled from the spec: the whole `lmproc` pass (the implementation
behind the declaration in `lmproc.h` is not among the visible sources).
Window preconditions are checked before any decoding (`tstart ≥ 0`,
`tstart < tstop`, else `InvalidWindowError`); then the stream is decoded,
windowed and accumulated starting from zero-initialized buffers, and the
result assembled. -/
def lmproc (flm : List RawRecord) (tstart tstop : Int)
    (s2cF : Nat → Option SBin) (axLUT : AxialLUT) (Cnt : Cnst) :
    Except LmError HstOut :=
  if tstart < 0 ∨ tstop ≤ tstart then .error .InvalidWindowError
  else
    (lmRun s2cF axLUT Cnt tstart.toNat tstop.toNat LmState.init flm).map
      (assemble Cnt)

/-- Caller memory holding the unsigned-int arrays, addressed by word. -/
def Heap := Nat → Nat

/-- Caller memory holding the float array `mss`, addressed by word
(float values embedded as rationals). -/
def FHeap := Nat → ℚ

/-- The C `hstout` structure as the caller holds it (`lmproc.h` lines
11–27): scalar fields carry values, each pointer field carries the base
address of its caller-allocated array.  `nitag`/`sne` are C `int`,
`snv`…`dsn` pointers, `psm`/`dsm` `unsigned long long`, `tot`
`unsigned int`. -/
structure HstOutC where
  nitag : Int
  sne : Int
  snv : Nat
  hcp : Nat
  hcd : Nat
  fan : Nat
  bck : Nat
  mss : Nat
  ssr : Nat
  psn : Nat
  dsn : Nat
  psm : Nat
  dsm : Nat
  tot : Nat

/-- Membership of address `a` in the array region of `n` words based at
`base`. -/
def inRegion (base n a : Nat) : Prop := base ≤ a ∧ a < base + n

/-- Write the `n`-word array `f` into the heap at base address `base`. -/
def writeRegion (h : Heap) (base n : Nat) (f : Nat → Nat) : Heap :=
  fun a => if base ≤ a ∧ a < base + n then f (a - base) else h a

/-- Write the `n`-word rational array `f` into the float heap at `base`. -/
def writeRegionQ (h : FHeap) (base n : Nat) (f : Nat → ℚ) : FHeap :=
  fun a => if base ≤ a ∧ a < base + n then f (a - base) else h a

/-- Size of the single-slice rebinned sinogram array. -/
def ssrSize (Cnt : Cnst) : Nat := Cnt.NSEG * Cnt.NSANGLES * Cnt.NSBINS

/-- The body of the C call, as declared in `lmproc.h`: it receives the
`hstout` aggregate BY VALUE, computes the pass, writes each result array
through the corresponding pointer field, and assigns the scalar results
(`nitag`, `sne`, `psm`, `dsm`, `tot`) to the fields of its local copy of
the aggregate; it returns the local copy together with the final heaps
(the array writes are modelled from the spec; on failure nothing is
reported).  `nint` is the caller-allocated extent of the per-time-tag
arrays `hcp`/`hcd`/`mss`. -/
def lmprocBody (dicout : HstOutC) (heap : Heap) (fheap : FHeap)
    (flm : List RawRecord) (tstart tstop : Int)
    (s2cF : Nat → Option SBin) (axLUT : AxialLUT) (Cnt : Cnst) (nint : Nat) :
    Except LmError (HstOutC × Heap × FHeap) :=
  match lmproc flm tstart tstop s2cF axLUT Cnt with
  | .error e => .error e
  | .ok out =>
    let heap1 := writeRegion heap dicout.snv Cnt.NSANGLES out.snv
    let heap2 := writeRegion heap1 dicout.hcp nint out.hcp
    let heap3 := writeRegion heap2 dicout.hcd nint out.hcd
    let heap4 := writeRegion heap3 dicout.fan Cnt.NCRS out.fan
    let heap5 := writeRegion heap4 dicout.bck Cnt.NBUCKETS out.bck
    let heap6 := writeRegion heap5 dicout.ssr (ssrSize Cnt) out.ssr
    let heap7 := writeRegion heap6 dicout.psn (totBins Cnt) out.psn
    let heap8 := writeRegion heap7 dicout.dsn (totBins Cnt) out.dsn
    let fheap1 := writeRegionQ fheap dicout.mss nint out.mss
    .ok ({ dicout with
            nitag := (out.nitag : Int)
            sne := (out.sne : Int)
            psm := out.psm
            dsm := out.dsm
            tot := out.tot },
         heap8, fheap1)

/-- The caller's world: its `hstout` aggregate and its memory. -/
structure CallerState where
  dic : HstOutC
  heap : Heap
  fheap : FHeap

/-- The call `lmproc(dicout, …)` as the caller observes it: `dicout` is
passed by value and the function returns `void`, so after the call the
caller keeps its own aggregate unchanged and observes only the heap
effects; the callee's copy of the aggregate is discarded. -/
def lmprocCall (cs : CallerState) (flm : List RawRecord) (tstart tstop : Int)
    (s2cF : Nat → Option SBin) (axLUT : AxialLUT) (Cnt : Cnst) (nint : Nat) :
    CallerState :=
  match lmprocBody cs.dic cs.heap cs.fheap flm tstart tstop s2cF axLUT Cnt nint with
  | .error _ => cs
  | .ok r => { dic := cs.dic, heap := r.2.1, fheap := r.2.2 }

/-- The set of heap addresses reachable through the unsigned-int pointer
fields of the aggregate (the only memory `lmproc` may write). -/
def footprint (dic : HstOutC) (Cnt : Cnst) (nint a : Nat) : Prop :=
  inRegion dic.snv Cnt.NSANGLES a ∨ inRegion dic.hcp nint a ∨
  inRegion dic.hcd nint a ∨ inRegion dic.fan Cnt.NCRS a ∨
  inRegion dic.bck Cnt.NBUCKETS a ∨ inRegion dic.ssr (ssrSize Cnt) a ∨
  inRegion dic.psn (totBins Cnt) a ∨ inRegion dic.dsn (totBins Cnt) a

/-- Concrete LOR-to-Bin Map used for witnesses: pair 0 and pair 1 are
direct (ring difference 0), pair 2 is oblique (ring difference 5). -/
def exS2c : Nat → Option SBin := fun dp =>
  if dp = 0 then some ⟨3, 77, 0, 0, 0, 0⟩
  else if dp = 1 then some ⟨10, 200, 0, 0, 0, 0⟩
  else if dp = 2 then some ⟨5, 6, 0, 0, 0, 5⟩
  else none

/-- Concrete axial compression map used for witnesses. -/
def exAx : AxialLUT := ⟨fun _ _ => 0, fun _ _ => 0⟩

/-- Concrete scanner constants used for witnesses (one view, one radial
bin, one sinogram, maximum ring difference 0). -/
def exCnt : Cnst := ⟨1, 1, 1, 1, 0, 256, 4⟩

/-- Concrete stream used for witnesses: two time-tag intervals, one
prompt in the first, one delayed after the second tag. -/
def exStream : List RawRecord :=
  [.timeTag 1000, .prompt 0, .timeTag 1000, .delayed 1]

/-- The output of the pass on `exStream` over `[0, 2000)`. -/
def exOut : HstOut :=
  match lmproc exStream 0 2000 exS2c exAx exCnt with
  | .ok o => o
  | .error _ => default

/-- The output of the pass on a pure time-tag stream (period 3, window
`[0, 10)`). -/
def exOut6 : HstOut :=
  match lmproc (List.replicate 4 (.timeTag 3)) 0 10 exS2c exAx exCnt with
  | .ok o => o
  | .error _ => default

/-- The final run state of the pass on `exStream` over `[0, 2000)`. -/
def exRunS : LmState :=
  match lmRun exS2c exAx exCnt 0 2000 LmState.init exStream with
  | .ok s => s
  | .error _ => LmState.init

/-- The run state after consuming one time tag over `[0, 1000)`. -/
def exS4 : LmState :=
  match lmRun exS2c exAx exCnt 0 1000 LmState.init [.timeTag 1] with
  | .ok s => s
  | .error _ => LmState.init

/-- A mid-pass state used for witnesses: clock at 3, one counted tag,
window open, zeroed histograms. -/
def exState : LmState := { t := 3, ntag := 1, live := true, hist := Hist.zero }

/-- Concrete caller aggregate for the call-semantics witnesses: disjoint
array regions at bases 0, 10, 20, …. -/
def exDic : HstOutC :=
  { nitag := 7, sne := 7, snv := 0, hcp := 10, hcd := 20, fan := 30,
    bck := 300, mss := 0, ssr := 310, psn := 320, dsn := 330,
    psm := 7, dsm := 7, tot := 7 }

/-- Concrete zeroed caller heap. -/
def exHeap : Heap := fun _ => 0

/-- Concrete zeroed caller float heap. -/
def exFHeap : FHeap := fun _ => 0

/-- The result of the call body on the concrete witness inputs. -/
def exBody : HstOutC × Heap × FHeap :=
  match lmprocBody exDic exHeap exFHeap exStream 0 2000 exS2c exAx exCnt 2 with
  | .ok r => r
  | .error _ => (exDic, exHeap, exFHeap)

end NIPET

namespace NIPET

/-- Validity of the LOR-to-Bin Map with respect to the sinogram extents:
every mapped detector pair yields a flat full-sinogram bin index inside
the addressable bin range. -/
def MapValid (s2cF : Nat → Option SBin) (axLUT : AxialLUT) (Cnt : Cnst) : Prop :=
  ∀ dp sb, s2cF dp = some sb → psnBin axLUT Cnt sb < totBins Cnt

/-- The per-bin/aggregate consistency invariant: each wide grand total
equals the sum of its sinogram's bins. -/
def SinoInv (NB : Nat) (h : Hist) : Prop :=
  h.psm = ∑ i in Finset.range NB, h.psn i ∧
  h.dsm = ∑ i in Finset.range NB, h.dsn i

theorem bump_self (f : Nat → Nat) (j d : Nat) : bump f j d j = f j + d := by
  simp [bump]

theorem bump_ne (f : Nat → Nat) (j d i : Nat) (h : i ≠ j) : bump f j d i = f i := by
  simp [bump, h]

theorem sum_bump (f : Nat → Nat) {j : Nat} (d : Nat) {n : Nat} (hj : j < n) :
    ∑ i in Finset.range n, bump f j d i = (∑ i in Finset.range n, f i) + d := by
  have h1 : ∀ i, bump f j d i = f i + (if i = j then d else 0) := by
    intro i; unfold bump; split <;> simp
  calc ∑ i in Finset.range n, bump f j d i
      = ∑ i in Finset.range n, (f i + if i = j then d else 0) :=
        Finset.sum_congr rfl (fun i _ => h1 i)
    _ = (∑ i in Finset.range n, f i) +
          ∑ i in Finset.range n, (if i = j then d else 0) :=
        Finset.sum_add_distrib
    _ = (∑ i in Finset.range n, f i) + d := by
        rw [Finset.sum_ite_eq' (Finset.range n) j (fun _ => d),
          if_pos (Finset.mem_range.mpr hj)]

theorem lmRun_cons (s2cF : Nat → Option SBin) (axLUT : AxialLUT) (Cnt : Cnst)
    (ts te : Nat) (s : LmState) (r : RawRecord) (l : List RawRecord) :
    lmRun s2cF axLUT Cnt ts te s (r :: l) =
      (lmStep s2cF axLUT Cnt ts te s r).bind
        (fun s1 => lmRun s2cF axLUT Cnt ts te s1 l) := rfl

theorem lmStep_dead (s2cF : Nat → Option SBin) (axLUT : AxialLUT) (Cnt : Cnst)
    (ts te : Nat) (s : LmState) (r : RawRecord) (h : s.live = false) :
    lmStep s2cF axLUT Cnt ts te s r = .ok s := by
  simp [lmStep, h]

theorem lmRun_dead (s2cF : Nat → Option SBin) (axLUT : AxialLUT) (Cnt : Cnst)
    (ts te : Nat) (s : LmState) (h : s.live = false) :
    ∀ l : List RawRecord, lmRun s2cF axLUT Cnt ts te s l = .ok s := by
  intro l
  induction l with
  | nil => rfl
  | cons r rest ih =>
    rw [lmRun_cons, lmStep_dead s2cF axLUT Cnt ts te s r h]
    exact ih

theorem lmRun_append (s2cF : Nat → Option SBin) (axLUT : AxialLUT) (Cnt : Cnst)
    (ts te : Nat) :
    ∀ (l1 l2 : List RawRecord) (s : LmState),
      lmRun s2cF axLUT Cnt ts te s (l1 ++ l2) =
        (lmRun s2cF axLUT Cnt ts te s l1).bind
          (fun s1 => lmRun s2cF axLUT Cnt ts te s1 l2) := by
  intro l1
  induction l1 with
  | nil => intro l2 s; rfl
  | cons r rest ih =>
    intro l2 s
    rw [List.cons_append, lmRun_cons, lmRun_cons]
    cases lmStep s2cF axLUT Cnt ts te s r with
    | error e => rfl
    | ok s1 => exact ih l2 s1

theorem coincUpd_sinoInv {s2cF : Nat → Option SBin} {axLUT : AxialLUT} {Cnt : Cnst}
    {b : Bool} {itag dp : Nat} {h h1 : Hist}
    (hv : MapValid s2cF axLUT Cnt)
    (hok : coincUpd s2cF axLUT Cnt b itag dp h = .ok h1)
    (hinv : SinoInv (totBins Cnt) h) : SinoInv (totBins Cnt) h1 := by
  cases hmap : s2cF dp with
  | none => simp [coincUpd, hmap] at hok
  | some sb =>
    simp only [coincUpd, hmap] at hok
    by_cases hr : ringDiff sb ≤ Cnt.MRD
    · rw [if_pos hr] at hok
      have hbin : psnBin axLUT Cnt sb < totBins Cnt := hv dp sb hmap
      obtain ⟨hp, hd⟩ := hinv
      injection hok with hok
      subst hok
      cases b with
      | true =>
        constructor
        · simp [sum_bump _ 1 hbin, hp]
        · simp [hd]
      | false =>
        constructor
        · simp [hp]
        · simp [sum_bump _ 1 hbin, hd]
    · rw [if_neg hr] at hok
      injection hok with hok
      subst hok
      exact hinv

theorem lmStep_sinoInv {s2cF : Nat → Option SBin} {axLUT : AxialLUT} {Cnt : Cnst}
    {ts te : Nat} {s s1 : LmState} {r : RawRecord}
    (hv : MapValid s2cF axLUT Cnt)
    (hok : lmStep s2cF axLUT Cnt ts te s r = .ok s1)
    (hinv : SinoInv (totBins Cnt) s.hist) : SinoInv (totBins Cnt) s1.hist := by
  by_cases hl : s.live = false
  · rw [lmStep_dead s2cF axLUT Cnt ts te s r hl] at hok
    injection hok with hok; subst hok; exact hinv
  · cases r with
    | timeTag dt =>
      simp only [lmStep, if_neg hl] at hok
      injection hok with hok; subst hok; exact hinv
    | prompt dp =>
      simp only [lmStep, if_neg hl] at hok
      by_cases hadm : ts ≤ s.t ∧ s.t < te
      · rw [if_pos hadm] at hok
        cases hc : coincUpd s2cF axLUT Cnt true s.itag dp s.hist with
        | error e => rw [hc] at hok; exact absurd hok (by simp [Except.map])
        | ok h1 =>
          rw [hc] at hok
          simp only [Except.map] at hok
          injection hok with hok; subst hok
          exact coincUpd_sinoInv hv hc hinv
      · rw [if_neg hadm] at hok
        injection hok with hok; subst hok; exact hinv
    | delayed dp =>
      simp only [lmStep, if_neg hl] at hok
      by_cases hadm : ts ≤ s.t ∧ s.t < te
      · rw [if_pos hadm] at hok
        cases hc : coincUpd s2cF axLUT Cnt false s.itag dp s.hist with
        | error e => rw [hc] at hok; exact absurd hok (by simp [Except.map])
        | ok h1 =>
          rw [hc] at hok
          simp only [Except.map] at hok
          injection hok with hok; subst hok
          exact coincUpd_sinoInv hv hc hinv
      · rw [if_neg hadm] at hok
        injection hok with hok; subst hok; exact hinv
    | bucket idx delta =>
      simp only [lmStep, if_neg hl] at hok
      by_cases hadm : ts ≤ s.t ∧ s.t < te
      · rw [if_pos hadm] at hok
        injection hok with hok; subst hok; exact hinv
      · rw [if_neg hadm] at hok
        injection hok with hok; subst hok; exact hinv
    | gantry =>
      simp only [lmStep, if_neg hl] at hok
      injection hok with hok; subst hok; exact hinv
    | unknown w =>
      simp only [lmStep, if_neg hl] at hok
      exact absurd hok (by simp)

theorem lmRun_sinoInv {s2cF : Nat → Option SBin} {axLUT : AxialLUT} {Cnt : Cnst}
    {ts te : Nat} (hv : MapValid s2cF axLUT Cnt) :
    ∀ {l : List RawRecord} {s s1 : LmState},
      lmRun s2cF axLUT Cnt ts te s l = .ok s1 →
      SinoInv (totBins Cnt) s.hist → SinoInv (totBins Cnt) s1.hist := by
  intro l
  induction l with
  | nil => intro s s1 hok hinv; cases hok; exact hinv
  | cons r rest ih =>
    intro s s1 hok hinv
    rw [lmRun_cons] at hok
    cases hstep : lmStep s2cF axLUT Cnt ts te s r with
    | error e => rw [hstep] at hok; exact absurd hok (by simp [Except.bind])
    | ok s2 =>
      rw [hstep] at hok
      exact ih hok (lmStep_sinoInv hv hstep hinv)

end NIPET

namespace NIPET

theorem coincUpd_sum_le {s2cF : Nat → Option SBin} {axLUT : AxialLUT} {Cnt : Cnst}
    {b : Bool} {itag dp : Nat} {h h1 : Hist}
    (hok : coincUpd s2cF axLUT Cnt b itag dp h = .ok h1) :
    h1.psm ≤ h.psm + 1 ∧ h1.dsm ≤ h.dsm + 1 := by
  cases hmap : s2cF dp with
  | none => simp [coincUpd, hmap] at hok
  | some sb =>
    simp only [coincUpd, hmap] at hok
    by_cases hr : ringDiff sb ≤ Cnt.MRD
    · rw [if_pos hr] at hok
      injection hok with hok
      subst hok
      cases b <;> simp
    · rw [if_neg hr] at hok
      injection hok with hok
      subst hok
      simp

theorem lmStep_sum_le {s2cF : Nat → Option SBin} {axLUT : AxialLUT} {Cnt : Cnst}
    {ts te : Nat} {s s1 : LmState} {r : RawRecord}
    (hok : lmStep s2cF axLUT Cnt ts te s r = .ok s1) :
    s1.hist.psm ≤ s.hist.psm + 1 ∧ s1.hist.dsm ≤ s.hist.dsm + 1 := by
  by_cases hl : s.live = false
  · rw [lmStep_dead s2cF axLUT Cnt ts te s r hl] at hok
    injection hok with hok; subst hok; simp
  · cases r with
    | timeTag dt =>
      simp only [lmStep, if_neg hl] at hok
      injection hok with hok; subst hok; simp
    | prompt dp =>
      simp only [lmStep, if_neg hl] at hok
      by_cases hadm : ts ≤ s.t ∧ s.t < te
      · rw [if_pos hadm] at hok
        cases hc : coincUpd s2cF axLUT Cnt true s.itag dp s.hist with
        | error e => rw [hc] at hok; exact absurd hok (by simp [Except.map])
        | ok h1 =>
          rw [hc] at hok
          simp only [Except.map] at hok
          injection hok with hok; subst hok
          exact coincUpd_sum_le hc
      · rw [if_neg hadm] at hok
        injection hok with hok; subst hok; simp
    | delayed dp =>
      simp only [lmStep, if_neg hl] at hok
      by_cases hadm : ts ≤ s.t ∧ s.t < te
      · rw [if_pos hadm] at hok
        cases hc : coincUpd s2cF axLUT Cnt false s.itag dp s.hist with
        | error e => rw [hc] at hok; exact absurd hok (by simp [Except.map])
        | ok h1 =>
          rw [hc] at hok
          simp only [Except.map] at hok
          injection hok with hok; subst hok
          exact coincUpd_sum_le hc
      · rw [if_neg hadm] at hok
        injection hok with hok; subst hok; simp
    | bucket idx delta =>
      simp only [lmStep, if_neg hl] at hok
      by_cases hadm : ts ≤ s.t ∧ s.t < te
      · rw [if_pos hadm] at hok
        injection hok with hok; subst hok; simp
      · rw [if_neg hadm] at hok
        injection hok with hok; subst hok; simp
    | gantry =>
      simp only [lmStep, if_neg hl] at hok
      injection hok with hok; subst hok; simp
    | unknown w =>
      simp only [lmStep, if_neg hl] at hok
      exact absurd hok (by simp)

theorem lmRun_sum_le {s2cF : Nat → Option SBin} {axLUT : AxialLUT} {Cnt : Cnst}
    {ts te : Nat} :
    ∀ {l : List RawRecord} {s s1 : LmState},
      lmRun s2cF axLUT Cnt ts te s l = .ok s1 →
      s1.hist.psm ≤ s.hist.psm + l.length ∧
      s1.hist.dsm ≤ s.hist.dsm + l.length := by
  intro l
  induction l with
  | nil => intro s s1 hok; injection hok with hok; subst hok; simp
  | cons r rest ih =>
    intro s s1 hok
    rw [lmRun_cons] at hok
    cases hstep : lmStep s2cF axLUT Cnt ts te s r with
    | error e => rw [hstep] at hok; exact absurd hok (by simp [Except.bind])
    | ok s2 =>
      rw [hstep] at hok
      have h1 := lmStep_sum_le hstep
      have h2 := ih hok
      constructor
      · calc s1.hist.psm ≤ s2.hist.psm + rest.length := h2.1
          _ ≤ s.hist.psm + 1 + rest.length := by omega
          _ = s.hist.psm + (r :: rest).length := by simp [List.length_cons]; omega
      · calc s1.hist.dsm ≤ s2.hist.dsm + rest.length := h2.2
          _ ≤ s.hist.dsm + 1 + rest.length := by omega
          _ = s.hist.dsm + (r :: rest).length := by simp [List.length_cons]; omega

theorem tagRun (s2cF : Nat → Option SBin) (axLUT : AxialLUT) (Cnt : Cnst)
    (p T : Nat) (hp : 0 < p) :
    ∀ (n k : Nat) (h : Hist), k * p < T → T ≤ (k + n) * p →
      lmRun s2cF axLUT Cnt 0 T ⟨k * p, k, true, h⟩
          (List.replicate n (.timeTag p)) =
        .ok ⟨((T + p - 1) / p) * p, (T + p - 1) / p, false, h⟩ := by
  intro n
  induction n with
  | zero =>
    intro k h hk hT
    rw [Nat.add_zero] at hT
    exact absurd (hk.trans_le hT) (lt_irrefl _)
  | succ n ih =>
    intro k h hk hT
    have hpos : 0 < k * p + p := lt_of_lt_of_le hp (Nat.le_add_left p (k * p))
    have hstep : lmStep s2cF axLUT Cnt 0 T ⟨k * p, k, true, h⟩ (.timeTag p) =
        .ok ⟨k * p + p, k + 1, decide (k * p + p < T), h⟩ := by
      simp [lmStep, hpos]
    rw [List.replicate_succ, lmRun_cons, hstep]
    show lmRun s2cF axLUT Cnt 0 T ⟨k * p + p, k + 1, decide (k * p + p < T), h⟩
        (List.replicate n (.timeTag p)) = _
    by_cases hlt : k * p + p < T
    · rw [decide_eq_true hlt]
      have hk1 : (k + 1) * p < T := by rw [Nat.succ_mul]; exact hlt
      have hT1 : T ≤ (k + 1 + n) * p := by
        rw [show k + 1 + n = k + (n + 1) from by omega]; exact hT
      have := ih (k + 1) h hk1 hT1
      rw [Nat.succ_mul] at this
      exact this
    · rw [decide_eq_false hlt]
      rw [lmRun_dead s2cF axLUT Cnt 0 T _ rfl]
      have h2 : T ≤ k * p + p := Nat.le_of_not_lt hlt
      have hm : (T + p - 1) / p = k + 1 := by
        apply Nat.div_eq_of_lt_le
        · rw [Nat.succ_mul]; omega
        · rw [Nat.succ_mul, Nat.succ_mul]; omega
      rw [hm, Nat.succ_mul]

end NIPET

namespace NIPET

theorem lmproc_sino_sum {flm : List RawRecord} {tstart tstop : Int}
    {s2cF : Nat → Option SBin} {axLUT : AxialLUT} {Cnt : Cnst} {out : HstOut}
    (hv : MapValid s2cF axLUT Cnt)
    (hok : lmproc flm tstart tstop s2cF axLUT Cnt = .ok out) :
    out.psm = ∑ i in Finset.range (totBins Cnt), out.psn i ∧
    out.dsm = ∑ i in Finset.range (totBins Cnt), out.dsn i := by
  unfold lmproc at hok
  by_cases hw : tstart < 0 ∨ tstop ≤ tstart
  · rw [if_pos hw] at hok; exact absurd hok (by simp)
  · rw [if_neg hw] at hok
    cases hr : lmRun s2cF axLUT Cnt tstart.toNat tstop.toNat LmState.init flm with
    | error e => rw [hr] at hok; exact absurd hok (by simp [Except.map])
    | ok s =>
      rw [hr] at hok
      simp only [Except.map] at hok
      injection hok with hok
      subst hok
      have hinv : SinoInv (totBins Cnt) LmState.init.hist := by
        constructor <;> simp [LmState.init, Hist.zero]
      exact lmRun_sinoInv hv hr hinv

theorem lmproc_count_le {flm : List RawRecord} {tstart tstop : Int}
    {s2cF : Nat → Option SBin} {axLUT : AxialLUT} {Cnt : Cnst} {out : HstOut}
    (hok : lmproc flm tstart tstop s2cF axLUT Cnt = .ok out) :
    out.psm ≤ flm.length ∧ out.dsm ≤ flm.length := by
  unfold lmproc at hok
  by_cases hw : tstart < 0 ∨ tstop ≤ tstart
  · rw [if_pos hw] at hok; exact absurd hok (by simp)
  · rw [if_neg hw] at hok
    cases hr : lmRun s2cF axLUT Cnt tstart.toNat tstop.toNat LmState.init flm with
    | error e => rw [hr] at hok; exact absurd hok (by simp [Except.map])
    | ok s =>
      rw [hr] at hok
      simp only [Except.map] at hok
      injection hok with hok
      subst hok
      have := lmRun_sum_le hr
      simpa [LmState.init, Hist.zero, assemble] using this

theorem exMapValid : MapValid exS2c exAx exCnt := by
  intro dp sb h
  unfold exS2c at h
  split_ifs at h <;> injection h with h <;> subst h <;> decide

/-- Claim C1: for every run of `lmproc` that completes successfully (and
any geometry table whose mapped bins lie inside the sinogram extent), the
64-bit grand total `psm` equals the sum of all entries of the prompt
sinogram `psn`, and `dsm` equals the sum of all entries of the delayed
sinogram `dsn`. -/
theorem spec_C1 (flm : List RawRecord) (tstart tstop : Int)
    (s2cF : Nat → Option SBin) (axLUT : AxialLUT) (Cnt : Cnst) (out : HstOut)
    (hv : MapValid s2cF axLUT Cnt)
    (hok : lmproc flm tstart tstop s2cF axLUT Cnt = .ok out) :
    out.psm = ∑ i in Finset.range (totBins Cnt), out.psn i ∧
    out.dsm = ∑ i in Finset.range (totBins Cnt), out.dsn i :=
  lmproc_sino_sum hv hok

/-- Witness for C1 at a concrete successful run. -/
theorem spec_C1_witness :
    exOut.psm = ∑ i in Finset.range (totBins exCnt), exOut.psn i ∧
    exOut.dsm = ∑ i in Finset.range (totBins exCnt), exOut.dsn i :=
  spec_C1 exStream 0 2000 exS2c exAx exCnt exOut exMapValid rfl

/-- Claim C5: a call with `tstart < 0` or `tstart ≥ tstop` fails with
`InvalidWindowError` before any decoding (the result does not depend on
the stream and carries no output). -/
theorem spec_C5 (flm : List RawRecord) (tstart tstop : Int)
    (s2cF : Nat → Option SBin) (axLUT : AxialLUT) (Cnt : Cnst)
    (hw : tstart < 0 ∨ tstop ≤ tstart) :
    lmproc flm tstart tstop s2cF axLUT Cnt = .error .InvalidWindowError := by
  unfold lmproc
  rw [if_pos hw]

/-- Witness for C5 at a concrete inverted window. -/
theorem spec_C5_witness :
    lmproc exStream (-1) 2000 exS2c exAx exCnt = .error .InvalidWindowError :=
  spec_C5 exStream (-1) 2000 exS2c exAx exCnt (Or.inl (by decide))

/-- Claim C8: for every fixed set of inputs, two runs of `lmproc`, each
starting from the freshly zero-initialized state, produce identical
results in every output array and scalar (determinism of re-running). -/
theorem spec_C8 (flm : List RawRecord) (tstart tstop : Int)
    (s2cF : Nat → Option SBin) (axLUT : AxialLUT) (Cnt : Cnst)
    (r1 r2 : Except LmError HstOut)
    (h1 : lmproc flm tstart tstop s2cF axLUT Cnt = r1)
    (h2 : lmproc flm tstart tstop s2cF axLUT Cnt = r2) : r1 = r2 :=
  h1.symm.trans h2

/-- Witness for C8 at a concrete run. -/
theorem spec_C8_witness : (Except.ok exOut : Except LmError HstOut) = .ok exOut :=
  spec_C8 exStream 0 2000 exS2c exAx exCnt (.ok exOut) (.ok exOut) rfl rfl

end NIPET

namespace NIPET

/-- Claim C2: while the window is open, an event (coincidence or bucket
record) whose associated elapsed time is strictly less than `tstart` or at
least `tstop` changes no output counter of any histogram (the state is
returned untouched), and a time tag whose new elapsed time exactly equals
`tstop` closes the window (`tstop` exclusive, `tstart` inclusive). -/
theorem spec_C2 (s2cF : Nat → Option SBin) (axLUT : AxialLUT) (Cnt : Cnst)
    (ts te : Nat) (s : LmState) (hlive : s.live = true) :
    (∀ dp idx delta, s.t < ts ∨ te ≤ s.t →
        lmStep s2cF axLUT Cnt ts te s (.prompt dp) = .ok s ∧
        lmStep s2cF axLUT Cnt ts te s (.delayed dp) = .ok s ∧
        lmStep s2cF axLUT Cnt ts te s (.bucket idx delta) = .ok s) ∧
    (∀ dt s1, s.t + dt = te →
        lmStep s2cF axLUT Cnt ts te s (.timeTag dt) = .ok s1 →
        s1.live = false) := by
  have hl : ¬s.live = false := by simp [hlive]
  constructor
  · intro dp idx delta hout
    have hadm : ¬(ts ≤ s.t ∧ s.t < te) := by omega
    refine ⟨?_, ?_, ?_⟩ <;> simp [lmStep, hl, hadm]
  · intro dt s1 hdt hstep
    simp only [lmStep, if_neg hl] at hstep
    injection hstep with hstep
    subst hstep
    simp [hdt]

/-- Witness for C2: an out-of-window prompt at clock 3 with
`tstart = 5` leaves the state untouched; a tag reaching exactly
`tstop = 10` closes the window. -/
theorem spec_C2_witness :
    lmStep exS2c exAx exCnt 5 10 exState (.prompt 0) = .ok exState ∧
    (LmState.mk 10 2 false Hist.zero).live = false :=
  ⟨((spec_C2 exS2c exAx exCnt 5 10 exState rfl).1 0 0 0 (Or.inl (by decide))).1,
   (spec_C2 exS2c exAx exCnt 5 10 exState rfl).2 7 ⟨10, 2, false, Hist.zero⟩ rfl rfl⟩

/-- Claim C3: an admitted coincidence whose ring pair exceeds the maximum
ring difference increments the fan-sums of both endpoint detectors and the
matching head-curve entry (`hcp` for prompts, `hcd` for delayeds) while
leaving `ssr`, `psn`, `dsn` (and all remaining counters) unchanged; a
coincidence whose ring difference exactly equals the maximum ring
difference is included in sinogram binning (inclusive bound). -/
theorem spec_C3 (s2cF : Nat → Option SBin) (axLUT : AxialLUT) (Cnt : Cnst)
    (ts te : Nat) (s : LmState) (dp : Nat) (sb : SBin)
    (hlive : s.live = true) (hadm : ts ≤ s.t ∧ s.t < te)
    (hmap : s2cF dp = some sb) :
    (Cnt.MRD < ringDiff sb →
      lmStep s2cF axLUT Cnt ts te s (.prompt dp) =
        .ok { s with hist := { s.hist with
                hcp := bump s.hist.hcp s.itag 1
                fan := bump (bump s.hist.fan sb.c0 1) sb.c1 1 } } ∧
      lmStep s2cF axLUT Cnt ts te s (.delayed dp) =
        .ok { s with hist := { s.hist with
                hcd := bump s.hist.hcd s.itag 1
                fan := bump (bump s.hist.fan sb.c0 1) sb.c1 1 } }) ∧
    (ringDiff sb = Cnt.MRD →
      ∀ s1 s2, lmStep s2cF axLUT Cnt ts te s (.prompt dp) = .ok s1 →
        lmStep s2cF axLUT Cnt ts te s (.delayed dp) = .ok s2 →
        s1.hist.psn (psnBin axLUT Cnt sb) = s.hist.psn (psnBin axLUT Cnt sb) + 1 ∧
        s1.hist.ssr (ssrBin axLUT Cnt sb) = s.hist.ssr (ssrBin axLUT Cnt sb) + 1 ∧
        s2.hist.dsn (psnBin axLUT Cnt sb) = s.hist.dsn (psnBin axLUT Cnt sb) + 1) := by
  have hl : ¬s.live = false := by simp [hlive]
  constructor
  · intro hover
    have hr : ¬ringDiff sb ≤ Cnt.MRD := not_le.mpr hover
    constructor <;>
      simp [lmStep, hl, hadm, coincUpd, hmap, hr, Except.map]
  · intro heq s1 s2 h1 h2
    have hr : ringDiff sb ≤ Cnt.MRD := le_of_eq heq
    simp only [lmStep, if_neg hl, if_pos hadm, coincUpd, hmap, if_pos hr,
      Except.map] at h1 h2
    injection h1 with h1
    injection h2 with h2
    subst h1
    subst h2
    refine ⟨?_, ?_, ?_⟩ <;> simp [bump_self]

/-- Witness for C3: an oblique pair (ring difference 5 > MRD 0) updates
only head curve and fan-sums. -/
theorem spec_C3_witness :
    lmStep exS2c exAx exCnt 0 10 exState (.prompt 2) =
      .ok { exState with hist := { exState.hist with
              hcp := bump exState.hist.hcp exState.itag 1
              fan := bump (bump exState.hist.fan 5 1) 6 1 } } :=
  ((spec_C3 exS2c exAx exCnt 0 10 exState 2 ⟨5, 6, 0, 0, 0, 5⟩ rfl
    (by decide) rfl).1 (by decide)).1

end NIPET

namespace NIPET

/-- Counterexample to C4 as stated: the stream
`[timeTag 1000, unknown 5]` over the window `[0, 1000)` contains a raw
word matching no known record kind, yet `lmproc` succeeds — the early
exit at `tstop` means the malformed word after the window closes is never
decoded. -/
theorem spec_C4_counterexample :
    (lmproc [.timeTag 1000, .unknown 5] 0 1000 exS2c exAx exCnt).isOk = true := by
  rfl

/-- Claim C4 (amended): a raw word matching no known record kind, or an
in-window coincidence whose detector-pair code is absent from `s2cF`,
that is reached while the window is still open, makes `lmproc` fail with
`MalformedRecordError`, and no output is reported (the error result
carries none). -/
theorem spec_C4_amended (tstart tstop : Int)
    (s2cF : Nat → Option SBin) (axLUT : AxialLUT) (Cnt : Cnst)
    (hw : ¬(tstart < 0 ∨ tstop ≤ tstart)) :
    (∀ (pre post : List RawRecord) (w : Nat) (s : LmState),
        lmRun s2cF axLUT Cnt tstart.toNat tstop.toNat LmState.init pre = .ok s →
        s.live = true →
        lmproc (pre ++ .unknown w :: post) tstart tstop s2cF axLUT Cnt =
          .error .MalformedRecordError) ∧
    (∀ (pre post : List RawRecord) (dp : Nat) (s : LmState),
        lmRun s2cF axLUT Cnt tstart.toNat tstop.toNat LmState.init pre = .ok s →
        s.live = true → tstart.toNat ≤ s.t → s.t < tstop.toNat →
        s2cF dp = none →
        lmproc (pre ++ .prompt dp :: post) tstart tstop s2cF axLUT Cnt =
          .error .MalformedRecordError) := by
  constructor
  · intro pre post w s hpre hlive
    have hl : ¬s.live = false := by simp [hlive]
    unfold lmproc
    rw [if_neg hw, lmRun_append, hpre]
    simp only [Except.bind, lmRun_cons]
    have hstep : lmStep s2cF axLUT Cnt tstart.toNat tstop.toNat s (.unknown w) =
        .error .MalformedRecordError := by
      simp [lmStep, hl]
    rw [hstep]
    rfl
  · intro pre post dp s hpre hlive hts hlt hmap
    have hl : ¬s.live = false := by simp [hlive]
    unfold lmproc
    rw [if_neg hw, lmRun_append, hpre]
    simp only [Except.bind, lmRun_cons]
    have hstep : lmStep s2cF axLUT Cnt tstart.toNat tstop.toNat s (.prompt dp) =
        .error .MalformedRecordError := by
      simp [lmStep, hl, hts, hlt, coincUpd, hmap, Except.map]
    rw [hstep]
    rfl

/-- Witness for the amended C4: an unknown word reached while the window
is open fails the whole pass. -/
theorem spec_C4_witness :
    lmproc ([.timeTag 1] ++ .unknown 5 :: []) 0 1000 exS2c exAx exCnt =
      .error .MalformedRecordError :=
  (spec_C4_amended 0 1000 exS2c exAx exCnt (by decide)).1
    [.timeTag 1] [] 5 exS4 rfl rfl

/-- Claim C6: a stream of `n` time tags with fixed period `p`, processed
over the window `[0, T)` (with enough tags to span the window), yields
`nitag = ⌈T / p⌉` and leaves every `hcp`, `hcd`, `bck` and `fan` entry
zero. -/
theorem spec_C6 (s2cF : Nat → Option SBin) (axLUT : AxialLUT) (Cnt : Cnst)
    (p T n : Nat) (out : HstOut)
    (hp : 0 < p) (hT : 0 < T) (hn : T ≤ n * p)
    (hok : lmproc (List.replicate n (.timeTag p)) 0 (T : Int) s2cF axLUT Cnt =
      .ok out) :
    out.nitag = (T + p - 1) / p ∧
    (∀ i, out.hcp i = 0) ∧ (∀ i, out.hcd i = 0) ∧
    (∀ i, out.bck i = 0) ∧ (∀ i, out.fan i = 0) := by
  unfold lmproc at hok
  have hw : ¬((0 : Int) < 0 ∨ (T : Int) ≤ 0) := by
    push_neg
    exact ⟨le_refl 0, by exact_mod_cast hT⟩
  rw [if_neg hw] at hok
  simp only [Int.toNat_zero, Int.toNat_ofNat, Int.toNat_natCast] at hok
  have hrun := tagRun s2cF axLUT Cnt p T hp n 0 Hist.zero
    (by simpa using hT) (by simpa using hn)
  rw [Nat.zero_mul] at hrun
  rw [show (⟨0, 0, true, Hist.zero⟩ : LmState) = LmState.init from rfl] at hrun
  rw [hrun] at hok
  simp only [Except.map] at hok
  injection hok with hok
  subst hok
  exact ⟨rfl, fun i => rfl, fun i => rfl, fun i => rfl, fun i => rfl⟩

/-- Witness for C6: period 3 over `[0, 10)` gives `nitag = 4` and a zero
head curve. -/
theorem spec_C6_witness :
    exOut6.nitag = (10 + 3 - 1) / 3 ∧ exOut6.hcp 0 = 0 :=
  ⟨(spec_C6 exS2c exAx exCnt 3 10 4 exOut6 (by decide) (by decide) (by decide)
      rfl).1,
   (spec_C6 exS2c exAx exCnt 3 10 4 exOut6 (by decide) (by decide) (by decide)
      rfl).2.1 0⟩

/-- Claim C7: after a completed pass, each reported `mss` entry equals
the interval's accumulated weighted sum divided by the interval's event
count, and every interval with zero events reports the zero sentinel —
the division in the finalization step is guarded for every interval. -/
theorem spec_C7 (flm : List RawRecord) (tstart tstop : Int)
    (s2cF : Nat → Option SBin) (axLUT : AxialLUT) (Cnt : Cnst) (s : LmState)
    (hw : ¬(tstart < 0 ∨ tstop ≤ tstart))
    (hrun : lmRun s2cF axLUT Cnt tstart.toNat tstop.toNat LmState.init flm =
      .ok s) :
    lmproc flm tstart tstop s2cF axLUT Cnt = .ok (assemble Cnt s) ∧
    ∀ i, (s.hist.mssCnt i = 0 → (assemble Cnt s).mss i = 0) ∧
         (s.hist.mssCnt i ≠ 0 →
           (assemble Cnt s).mss i =
             (s.hist.mssSum i : ℚ) / (s.hist.mssCnt i : ℚ)) := by
  constructor
  · unfold lmproc
    rw [if_neg hw, hrun]
    rfl
  · intro i
    constructor
    · intro h0; simp [assemble, h0]
    · intro h0; simp [assemble, h0]

/-- Witness for C7: the interval holding the one admitted prompt of
`exStream` reports its weighted sum over its event count. -/
theorem spec_C7_witness :
    (assemble exCnt exRunS).mss 0 =
      (exRunS.hist.mssSum 0 : ℚ) / (exRunS.hist.mssCnt 0 : ℚ) :=
  ((spec_C7 exStream 0 2000 exS2c exAx exCnt exRunS (by decide) rfl).2 0).2
    (by decide)

end NIPET

namespace NIPET

theorem writeRegion_in (h : Heap) (b n : Nat) (f : Nat → Nat) (i : Nat)
    (hi : i < n) : writeRegion h b n f (b + i) = f i := by
  unfold writeRegion
  rw [if_pos ⟨Nat.le_add_right b i, by omega⟩, Nat.add_sub_cancel_left]

theorem writeRegion_out (h : Heap) (b n : Nat) (f : Nat → Nat) (a : Nat)
    (ha : ¬inRegion b n a) : writeRegion h b n f a = h a := by
  unfold inRegion at ha
  unfold writeRegion
  rw [if_neg ha]

theorem writeRegionQ_out (h : FHeap) (b n : Nat) (f : Nat → ℚ) (a : Nat)
    (ha : ¬inRegion b n a) : writeRegionQ h b n f a = h a := by
  unfold inRegion at ha
  unfold writeRegionQ
  rw [if_neg ha]

/-- Claim C9: the grand totals are accumulated at a width that never
overflows 64 bits for any stream shorter than `2^64` records, and,
modelling the 32-bit per-bin counters as arithmetic modulo `2^32`, `psm`
is congruent to the sum of the (wrapped) `psn` entries modulo `2^32` and
`dsm` to the sum of the (wrapped) `dsn` entries. -/
theorem spec_C9 (flm : List RawRecord) (tstart tstop : Int)
    (s2cF : Nat → Option SBin) (axLUT : AxialLUT) (Cnt : Cnst) (out : HstOut)
    (hv : MapValid s2cF axLUT Cnt)
    (hok : lmproc flm tstart tstop s2cF axLUT Cnt = .ok out)
    (hlen : flm.length < 2 ^ 64) :
    out.psm < 2 ^ 64 ∧ out.dsm < 2 ^ 64 ∧
    out.psm % 2 ^ 32 =
      (∑ i in Finset.range (totBins Cnt), out.psn i % 2 ^ 32) % 2 ^ 32 ∧
    out.dsm % 2 ^ 32 =
      (∑ i in Finset.range (totBins Cnt), out.dsn i % 2 ^ 32) % 2 ^ 32 := by
  obtain ⟨hps, hds⟩ := lmproc_count_le hok
  obtain ⟨hp, hd⟩ := lmproc_sino_sum hv hok
  refine ⟨lt_of_le_of_lt hps hlen, lt_of_le_of_lt hds hlen, ?_, ?_⟩
  · rw [hp]
    exact Finset.sum_nat_mod (Finset.range (totBins Cnt)) (2 ^ 32) out.psn
  · rw [hd]
    exact Finset.sum_nat_mod (Finset.range (totBins Cnt)) (2 ^ 32) out.dsn

/-- Witness for C9 at a concrete run. -/
theorem spec_C9_witness :
    exOut.psm < 2 ^ 64 ∧
    exOut.psm % 2 ^ 32 =
      (∑ i in Finset.range (totBins exCnt), exOut.psn i % 2 ^ 32) % 2 ^ 32 :=
  ⟨(spec_C9 exStream 0 2000 exS2c exAx exCnt exOut exMapValid rfl
      (by decide)).1,
   (spec_C9 exStream 0 2000 exS2c exAx exCnt exOut exMapValid rfl
      (by decide)).2.2.1⟩

/-- Claim C10: because `lmproc` receives the `hstout` aggregate by value
and returns `void` (`lmproc.h` line 30), the caller observes exactly the
writes made through the pointer fields: its own aggregate — including the
scalar fields `nitag`, `sne`, `psm`, `dsm`, `tot` — is unchanged by the
call, even though the callee's local copy does receive the scalar
results; memory outside the pointer-field regions is untouched, and the
array contents written through a pointer field (here the last-written
`dsn` region) are observable. -/
theorem spec_C10 (cs : CallerState) (flm : List RawRecord) (tstart tstop : Int)
    (s2cF : Nat → Option SBin) (axLUT : AxialLUT) (Cnt : Cnst) (nint : Nat)
    (out : HstOut)
    (hok : lmproc flm tstart tstop s2cF axLUT Cnt = .ok out) :
    (lmprocCall cs flm tstart tstop s2cF axLUT Cnt nint).dic = cs.dic ∧
    (∀ dic1 heap1 fheap1,
        lmprocBody cs.dic cs.heap cs.fheap flm tstart tstop s2cF axLUT Cnt
            nint = .ok (dic1, heap1, fheap1) →
        dic1.nitag = (out.nitag : Int) ∧ dic1.sne = (out.sne : Int) ∧
        dic1.psm = out.psm ∧ dic1.dsm = out.dsm ∧ dic1.tot = out.tot ∧
        (lmprocCall cs flm tstart tstop s2cF axLUT Cnt nint).heap = heap1 ∧
        (lmprocCall cs flm tstart tstop s2cF axLUT Cnt nint).fheap = fheap1 ∧
        (∀ i, i < totBins Cnt → heap1 (cs.dic.dsn + i) = out.dsn i)) ∧
    (∀ a, ¬footprint cs.dic Cnt nint a →
        (lmprocCall cs flm tstart tstop s2cF axLUT Cnt nint).heap a =
          cs.heap a) ∧
    (∀ a, ¬inRegion cs.dic.mss nint a →
        (lmprocCall cs flm tstart tstop s2cF axLUT Cnt nint).fheap a =
          cs.fheap a) := by
  have hbody : lmprocBody cs.dic cs.heap cs.fheap flm tstart tstop s2cF axLUT
      Cnt nint =
      .ok ({ cs.dic with
              nitag := (out.nitag : Int)
              sne := (out.sne : Int)
              psm := out.psm
              dsm := out.dsm
              tot := out.tot },
           writeRegion (writeRegion (writeRegion (writeRegion (writeRegion
             (writeRegion (writeRegion (writeRegion cs.heap cs.dic.snv
               Cnt.NSANGLES out.snv) cs.dic.hcp nint out.hcp) cs.dic.hcd nint
               out.hcd) cs.dic.fan Cnt.NCRS out.fan) cs.dic.bck Cnt.NBUCKETS
               out.bck) cs.dic.ssr (ssrSize Cnt) out.ssr) cs.dic.psn
               (totBins Cnt) out.psn) cs.dic.dsn (totBins Cnt) out.dsn,
           writeRegionQ cs.fheap cs.dic.mss nint out.mss) := by
    unfold lmprocBody
    rw [hok]
  have hcall : lmprocCall cs flm tstart tstop s2cF axLUT Cnt nint =
      { dic := cs.dic,
        heap := writeRegion (writeRegion (writeRegion (writeRegion (writeRegion
          (writeRegion (writeRegion (writeRegion cs.heap cs.dic.snv
            Cnt.NSANGLES out.snv) cs.dic.hcp nint out.hcp) cs.dic.hcd nint
            out.hcd) cs.dic.fan Cnt.NCRS out.fan) cs.dic.bck Cnt.NBUCKETS
            out.bck) cs.dic.ssr (ssrSize Cnt) out.ssr) cs.dic.psn
            (totBins Cnt) out.psn) cs.dic.dsn (totBins Cnt) out.dsn,
        fheap := writeRegionQ cs.fheap cs.dic.mss nint out.mss } := by
    unfold lmprocCall
    rw [hbody]
  refine ⟨?_, ?_, ?_, ?_⟩
  · rw [hcall]
  · intro dic1 heap1 fheap1 hb
    have h := hbody.symm.trans hb
    injection h with h
    have h2 : (lmprocCall cs flm tstart tstop s2cF axLUT Cnt nint).heap =
        heap1 := by
      rw [hcall]
      exact congrArg (fun x : HstOutC × Heap × FHeap => x.2.1) h
    have h3 : (lmprocCall cs flm tstart tstop s2cF axLUT Cnt nint).fheap =
        fheap1 := by
      rw [hcall]
      exact congrArg (fun x : HstOutC × Heap × FHeap => x.2.2) h
    have h1 : dic1 = { cs.dic with
        nitag := (out.nitag : Int)
        sne := (out.sne : Int)
        psm := out.psm
        dsm := out.dsm
        tot := out.tot } :=
      (congrArg (fun x : HstOutC × Heap × FHeap => x.1) h).symm
    subst h1
    refine ⟨rfl, rfl, rfl, rfl, rfl, h2, h3, ?_⟩
    intro i hi
    rw [← h2, hcall]
    show writeRegion _ _ _ _ _ = _
    exact writeRegion_in _ _ _ _ _ hi
  · intro a ha
    simp only [footprint, not_or] at ha
    obtain ⟨h1, h2, h3, h4, h5, h6, h7, h8⟩ := ha
    rw [hcall]
    show writeRegion _ _ _ _ _ = _
    rw [writeRegion_out _ _ _ _ _ h8, writeRegion_out _ _ _ _ _ h7,
      writeRegion_out _ _ _ _ _ h6, writeRegion_out _ _ _ _ _ h5,
      writeRegion_out _ _ _ _ _ h4, writeRegion_out _ _ _ _ _ h3,
      writeRegion_out _ _ _ _ _ h2, writeRegion_out _ _ _ _ _ h1]
  · intro a ha
    rw [hcall]
    show writeRegionQ _ _ _ _ _ = _
    rw [writeRegionQ_out _ _ _ _ _ ha]

/-- Witness for C10: after a concrete call, the caller's aggregate is
bit-identical to what it passed in, and an address outside every array
region is untouched. -/
theorem spec_C10_witness :
    (lmprocCall ⟨exDic, exHeap, exFHeap⟩ exStream 0 2000 exS2c exAx exCnt
        2).dic = exDic ∧
    (lmprocCall ⟨exDic, exHeap, exFHeap⟩ exStream 0 2000 exS2c exAx exCnt
        2).heap 1000 = exHeap 1000 :=
  ⟨(spec_C10 ⟨exDic, exHeap, exFHeap⟩ exStream 0 2000 exS2c exAx exCnt 2 exOut
      rfl).1,
   (spec_C10 ⟨exDic, exHeap, exFHeap⟩ exStream 0 2000 exS2c exAx exCnt 2 exOut
      rfl).2.2.1 1000 (by unfold footprint inRegion; decide)⟩

end NIPET
